import Mathlib

/-!
Verification of the hybrid knowledge-retrieval engine in `app/vector_search.py`
(repository Mnenja): score normalization, vector/keyword score fusion, MMR
re-ranking, the embedding client, the query composer and the context renderer.

Modelling conventions:
* Python floats are modelled as exact rationals (`ℚ`); `math.sqrt` is modelled
  by `Rat.sqrt` (only the zero/nonzero behaviour of the square root matters to
  the properties proved here).
* Python dicts (insertion-ordered, last-write-wins) are modelled as
  association lists with an in-place-replacing insert.
* Fallible calls return `Except String`; an uncaught exception is `Option`
  `none` at the top level.
* Backend result rows are modelled as already-normalized `Row` records (the
  output of `Row.from_any`); the key-discovery of the row normalizer itself is
  not the subject of any claim below.
-/

namespace VectorSearch

/-- Model of the `Row` dataclass of `vector_search.py` (the `meta` passthrough
dict is omitted; it never influences the retrieval pipeline). -/
structure Row where
  id : String
  text : String
  similarity : ℚ
  source : Option String
  article : Option String
  paragraph : Option String
  page : Option String
  eup : Option String
  land_use : Option String
  year : Option String
  embedding : Option (List ℚ)
deriving DecidableEq, Repr

/-! ### Python-string helpers

Python `str.strip` / `str.split()` are modelled on the character list so that
everything reduces in the kernel. -/

/-- Model of Python `str.strip()` (trim whitespace on both sides). -/
def pyStrip (s : String) : String :=
  String.mk (((s.data.dropWhile Char.isWhitespace).reverse.dropWhile Char.isWhitespace).reverse)

/-- Helper for `pySplit`: accumulates the current word (reversed). -/
def pySplitAux : List Char → List Char → List String
  | [], acc => if acc = [] then [] else [String.mk acc.reverse]
  | c :: rest, acc =>
    if c.isWhitespace then
      if acc = [] then pySplitAux rest []
      else String.mk acc.reverse :: pySplitAux rest []
    else pySplitAux rest (c :: acc)

/-- Model of Python `str.split()` with no argument: split on whitespace runs,
dropping empty fragments. -/
def pySplit (s : String) : List String := pySplitAux s.data []

/-! ### Similarity helpers (`_cos`, `_token_set`, `_jaccard`, `_normalise`) -/

/-- `sum(x*y for x, y in zip(a, b))`. -/
def dotProd (a b : List ℚ) : ℚ := ((a.zip b).map (fun p => p.1 * p.2)).sum

/-- `math.sqrt(sum(x*x for x in a)) or 1.0` — the norm used by `_cos`, with a
zero result replaced by `1.0` (Python `or`). -/
def cosNorm (v : List ℚ) : ℚ :=
  let n := Rat.sqrt ((v.map (fun x => x * x)).sum)
  if n = 0 then 1 else n

/-- Model of `_cos` (vector_search.py lines 93–98): cosine similarity returning
`0.0` on an empty operand, with zero norms replaced by `1.0`. -/
def cos (a b : List ℚ) : ℚ :=
  if a = [] ∨ b = [] then 0 else dotProd a b / (cosNorm a * cosNorm b)

/-- Model of `_token_set`: lower-case alphanumeric tokens of a string.
(`Char.isAlphanum`/`Char.toLower` are the ASCII approximation of the Python
predicates; all concrete inputs below are ASCII.) -/
def tokenSet (s : String) : Finset String :=
  (pySplit (String.mk (s.data.map (fun ch => if ch.isAlphanum then ch.toLower else ' ')))).toFinset

/-- Model of `_jaccard`: `len(A & B) / len(A | B)`, `0.0` when either set is
empty. -/
def jaccard (a b : String) : ℚ :=
  let A := tokenSet a
  let B := tokenSet b
  if A = ∅ ∨ B = ∅ then 0
  else ((A ∩ B).card : ℚ) / ((A ∪ B).card : ℚ)

/-- Model of `_normalise` (lines 108–113): min-max normalization; a list whose
spread is below `1e-12` maps to all zeros. -/
def normalise : List ℚ → List ℚ
  | [] => []
  | v :: vs =>
    let lo := vs.foldl min v
    let hi := vs.foldl max v
    if |hi - lo| < 1 / 1000000000000 then (v :: vs).map (fun _ => 0)
    else (v :: vs).map (fun x => (x - lo) / (hi - lo))

/-! ### Python dict model -/

/-- First-match lookup in an association list (Python `d.get(k)` /
`d[k]`). -/
def dictFind {α : Type} : List (String × α) → String → Option α
  | [], _ => none
  | (k', v) :: rest, k => if k = k' then some v else dictFind rest k

/-- Python `d.get(k, default)`. -/
def dictGetD {α : Type} (d : List (String × α)) (k : String) (df : α) : α :=
  (dictFind d k).getD df

/-- Python `d[k] = v`: replace in place if the key exists (keeping its
position), else append. -/
def dictInsert {α : Type} : List (String × α) → String → α → List (String × α)
  | [], k, v => [(k, v)]
  | (k', v') :: rest, k, v =>
    if k' = k then (k, v) :: rest else (k', v') :: dictInsert rest k v

/-- Model of `_normalise_scores` (lines 200–203): min-max-normalize the rows'
similarities and key them by row id (`vals or [0.0]` for the empty case). -/
def normaliseScores (rows : List Row) : List (String × ℚ) :=
  let vals := if rows = [] then [0] else rows.map Row.similarity
  let norm_vals := normalise vals
  (rows.zip norm_vals).foldl (fun d p => dictInsert d p.1.id p.2) []

/-! ### Embedding client (`embed_query`, lines 132–159)

The `lru_cache` on `_cached_embed_hash` caches only the SHA-256 digest of the
trimmed text; the modelled `cache` is the set of texts whose digest has been
cached.  `providerCalls` counts invocations of the provider embedding
function during the call; `result` is `.error` exactly when the function
raises `RuntimeError`. -/

/-- The outcome of one `embed_query` call. -/
structure EmbedResult where
  result : Except String (List ℚ)
  cache : List String
  providerCalls : Nat

/-- Model of `embed_query` (lines 136–159).  `embed_fn` is the injected
function, `default_embed_fn` the module-level one discovered from `ai.py`
(`fn = embed_fn or _default_embed_fn`).  The provider function is modelled as
total; a raised provider exception is out of scope of the claims below. -/
def embed_query (text : String) (embed_fn default_embed_fn : Option (String → List ℚ))
    (cache : List String) : EmbedResult :=
  let cleaned := pyStrip text
  if cleaned = "" then ⟨.ok [], cache, 0⟩
  else
    let cache' := if cleaned ∈ cache then cache else cleaned :: cache
    match embed_fn with
    | some f => ⟨.ok (f cleaned), cache', 1⟩
    | none =>
      match default_embed_fn with
      | some f => ⟨.ok (f cleaned), cache', 1⟩
      | none =>
        ⟨.error "embed_query: manjka embed funkcija. Podaj embed_fn ali poskrbi, da ai.py vsebuje npr. embed_query(text)->vector.",
          cache', 0⟩

/-! ### Query composer (`_build_query_text`, lines 165–191)

`key_data` is modelled as an insertion-ordered association list (a Python
dict); its values are strings, as in every call site of the repository. -/

/-- The high-priority numeric keys emitted first (line 179). -/
def priorityKeys : List String :=
  ["odmik", "FZ", "FI", "etažnost", "višina", "gabarit", "naklon", "parcelna_meja"]

/-- The inner `add(label, value)` helper: append `"label: value"` when the
stripped value is non-empty. -/
def addPart (parts : List String) (label value : String) : List String :=
  let v := pyStrip value
  if v = "" then parts else parts ++ [label ++ ": " ++ v]

/-- Model of `_build_query_text` (lines 165–191). -/
def build_query_text (key_data : List (String × String)) (eup namenska_raba : Option String) :
    String :=
  let parts : List String := []
  let parts := priorityKeys.foldl (fun ps k =>
    match dictFind key_data k with
    | some v => if v ≠ "" then addPart ps k v else ps
    | none => ps) parts
  let parts := key_data.foldl (fun ps p =>
    if p.1 ∈ priorityKeys then ps else addPart ps p.1 p.2) parts
  let parts := addPart parts "EUP" (eup.getD "")
  let parts := addPart parts "namenska raba" (namenska_raba.getD "")
  let s := String.intercalate " | " parts
  if s = "" then "prostorska pravila EUP namenska raba pogoji FZ FI odmiki" else s

/-! ### MMR re-ranker (`_mmr`, lines 205–238) -/

/-- The `div_sim` helper inside `_mmr` (lines 214–217): cosine over document
embeddings when both are present and non-empty (Python truthiness), else
Jaccard over the texts. -/
def div_sim (a b : Row) : ℚ :=
  match a.embedding, b.embedding with
  | some ea, some eb =>
    if ea = [] ∨ eb = [] then jaccard a.text b.text else cos ea eb
  | _, _ => jaccard a.text b.text

/-- `max(div_sim(cand, s) for s in selected)` when `selected` is non-empty,
`0.0` otherwise (lines 227–230). -/
def maxDiv (cand : Row) (selected : List Row) : ℚ :=
  match selected with
  | [] => 0
  | s :: rest => (rest.map (div_sim cand)).foldl max (div_sim cand s)

/-- The MMR objective `lambda_ * rel - (1.0 - lambda_) * max_div`
(line 231). -/
def mmrScore (lambda_ : ℚ) (selected : List Row) (cand : Row) : ℚ :=
  lambda_ * cand.similarity - (1 - lambda_) * maxDiv cand selected

/-- One step of the inner `for cand in pool` argmax of `_mmr`
(lines 224–234): the running best starts as `None` with score `-1e9`;
a strictly greater score replaces it. -/
def mmrFold (lambda_ : ℚ) (selected : List Row) (acc : Option (Row × ℚ)) (cand : Row) :
    Option (Row × ℚ) :=
  let score := mmrScore lambda_ selected cand
  match acc with
  | none => if score > -1000000000 then some (cand, score) else none
  | some (b, bs) => if score > bs then some (cand, score) else some (b, bs)

/-- The whole inner argmax (lines 223–234).  A `none` result means `best`
stayed `None`, so the loop body would go on to call `selected.append(None)` /
`pool.remove(None)` and raise. -/
def mmrStep (lambda_ : ℚ) (selected pool : List Row) : Option Row :=
  (pool.foldl (mmrFold lambda_ selected) none).map Prod.fst

/-- The `while pool and len(selected) < top_k` loop of `_mmr`
(lines 222–236).  `fuel` bounds the iteration count; `_mmr` passes
`pool.length`, which is exact since every iteration removes the picked
element.  A `none` result models the `ValueError` raised when no candidate
beats the `-1e9` sentinel. -/
def mmrLoop (lambda_ : ℚ) (top_k : Nat) : Nat → List Row → List Row → Option (List Row)
  | 0, selected, pool =>
    if pool = [] ∨ top_k ≤ selected.length then some selected else none
  | fuel + 1, selected, pool =>
    if pool = [] ∨ top_k ≤ selected.length then some selected
    else
      match mmrStep lambda_ selected pool with
      | none => none
      | some best => mmrLoop lambda_ top_k fuel (selected ++ [best]) (pool.erase best)

/-- Model of `_mmr` (lines 205–238). -/
def mmr (rows : List Row) (top_k : Nat) (lambda_ : ℚ) : Option (List Row) :=
  if rows = [] then some [] else mmrLoop lambda_ top_k rows.length [] rows

/-! ### Storage collaborator and hybrid search (lines 197–342) -/

/-- The duck-typed `db_manager`: each capability is optional (`_db_has`), and
calling one may raise (`Except.error`). -/
structure DbManager where
  search_vector_knowledge : Option (List ℚ → Nat → Except String (List Row))
  search_keyword_knowledge : Option (String → Nat → Except String (List Row))
  get_document_embeddings : Option (List String → Except String (List (String × List ℚ)))

/-- Model of `_fetch_doc_embeddings_if_possible` (lines 240–258), restricted
to the dict-shaped response; a missing capability or a raised exception
yields the empty map. -/
def fetchDocEmbeddings (db : DbManager) (ids : List String) : List (String × List ℚ) :=
  match db.get_document_embeddings with
  | none => []
  | some f =>
    match f ids with
    | .error _ => []
    | .ok m => m

/-- `if r.embedding is None and r.id in emb_map: r.embedding = emb_map[r.id]`
(lines 306–308 and 336–338). -/
def updateEmbeddings (emb_map : List (String × List ℚ)) (rows : List Row) : List Row :=
  rows.map (fun r =>
    match r.embedding, dictFind emb_map r.id with
    | none, some e => { r with embedding := some e }
    | _, _ => r)

/-- Phase 1 of the score fusion (lines 320–322): every vector row's id is
assigned `alpha * v_norm.get(id, 0.0)`. -/
def vecPhaseDict (vecRows : List Row) (alpha : ℚ) : List (String × ℚ) :=
  let v_norm := if vecRows = [] then [] else normaliseScores vecRows
  vecRows.foldl (fun d r => dictInsert d r.id (alpha * dictGetD v_norm r.id 0)) []

/-- Phase 2 of the score fusion (lines 324–327): every keyword row's id is
assigned `max(score.get(id, 0.0), (1 - alpha) * b_norm.get(id, 0.0))`. -/
def fusedScoreDict (vecRows bmRows : List Row) (alpha : ℚ) : List (String × ℚ) :=
  let b_norm := normaliseScores bmRows
  bmRows.foldl (fun d r => dictInsert d r.id
    (max (dictGetD d r.id 0) ((1 - alpha) * dictGetD b_norm r.id 0))) (vecPhaseDict vecRows alpha)

/-- The `merged` dict (lines 317–326): vector rows first (overwriting on
duplicate ids), keyword rows only when the id is new. -/
def mergedDict (vecRows bmRows : List Row) : List (String × Row) :=
  let m := vecRows.foldl (fun d r => dictInsert d r.id r) []
  bmRows.foldl (fun d r => if (dictFind d r.id).isSome then d else dictInsert d r.id r) m

/-- `rows = list(merged.values())` with `r.similarity = score.get(r.id, 0.0)`
(lines 330–332). -/
def fusedRows (vecRows bmRows : List Row) (alpha : ℚ) : List Row :=
  let score := fusedScoreDict vecRows bmRows alpha
  (mergedDict vecRows bmRows).map (fun p => { p.2 with similarity := dictGetD score p.2.id 0 })

/-- Model of `hybrid_search` (lines 263–342).  A backend is consulted only
when the capability exists and the query operand is truthy; a raised backend
exception is caught and treated as no results.  `none` models the only
uncaught exception, the `_mmr` `ValueError`. -/
def hybrid_search (db : DbManager) (query_text : String) (query_embedding : List ℚ)
    (k : Nat) (alpha : ℚ) : Option (List Row) :=
  let vec_rows :=
    match db.search_vector_knowledge with
    | some f =>
      if query_embedding = [] then []
      else
        match f query_embedding (max (3 * k) 50) with
        | .ok rs => rs
        | .error _ => []
    | none => []
  let bm_rows :=
    match db.search_keyword_knowledge with
    | some f =>
      if query_text = "" then []
      else
        match f query_text (max (3 * k) 50) with
        | .ok rs => rs
        | .error _ => []
    | none => []
  if bm_rows = [] ∧ vec_rows = [] then some []
  else if bm_rows = [] then
    let norm := normaliseScores vec_rows
    let vec_rows := vec_rows.map (fun r => { r with similarity := dictGetD norm r.id 0 })
    let emb_map := fetchDocEmbeddings db (vec_rows.map Row.id)
    mmr (updateEmbeddings emb_map vec_rows) k (3/4)
  else
    let rows := fusedRows vec_rows bm_rows alpha
    let emb_map := fetchDocEmbeddings db (rows.map Row.id)
    mmr (updateEmbeddings emb_map rows) k (3/4)

/-! ### Context renderer (lines 348–374) -/

/-- One citation fragment: emitted only when the optional field is truthy
(non-`None` and non-empty). -/
def citePart (label : String) (v : Option String) : List String :=
  match v with
  | some s => if s = "" then [] else [label ++ s]
  | none => []

/-- Model of `summarise_row_for_prompt` (lines 348–366). -/
def summarise_row_for_prompt (r : Row) (idx : Nat) : String :=
  let cite_bits :=
    citePart "Vir: " r.source ++ citePart "Člen: " r.article ++
    citePart "Odst.: " r.paragraph ++ citePart "Stran: " r.page ++
    citePart "EUP: " r.eup ++ citePart "Namenska raba: " r.land_use ++
    citePart "Leto: " r.year
  let cite := if cite_bits = [] then "Vir: (neznan)" else String.intercalate ", " cite_bits
  let text_one_line := String.intercalate " " (pySplit (pyStrip r.text))
  let text_one_line :=
    if 350 < text_one_line.length then text_one_line.take 347 ++ "..." else text_one_line
  "[" ++ toString idx ++ "] " ++ cite ++ " — “" ++ text_one_line ++ "”"

/-- Model of `build_context_block` (lines 368–374): a header line followed by
one summarised line per row. -/
def build_context_block (rows : List Row) : String :=
  let lines := rows.enum.map (fun p => summarise_row_for_prompt p.2 (p.1 + 1))
  "Relevantna pravila (citati):" ++ "\n" ++ String.intercalate "\n" lines

/-! ### Public entry point (`get_vector_context`, lines 380–406) -/

/-- Model of `get_vector_context`: builds the query text, embeds it (catching
any `embed_query` exception and falling back to the empty embedding), runs
`hybrid_search` with `alpha = 0.6`, and renders the context block.  The
returned row list stands for the serialized `rows_json`; `none` is an
uncaught exception escaping `hybrid_search`. -/
def get_vector_context (db : DbManager) (key_data : List (String × String))
    (eup namenska_raba : Option String) (k : Nat)
    (embed_fn default_embed_fn : Option (String → List ℚ)) :
    Option (String × List Row) :=
  let query_text := build_query_text key_data eup namenska_raba
  let q_emb :=
    match (embed_query query_text embed_fn default_embed_fn []).result with
    | .error _ => []
    | .ok v => v
  (hybrid_search db query_text q_emb k (3/5)).map (fun rows => (build_context_block rows, rows))

/-! ### Concrete inputs used by the witnesses and counterexamples -/

/-- A row with the given id and raw score and no other data. -/
def mkRow (id : String) (sim : ℚ) : Row :=
  ⟨id, "", sim, none, none, none, none, none, none, none, none⟩

def C1V : List Row := [mkRow "x0" 0, mkRow "z" 1, mkRow "x2" 2]

def C1B : List Row := [mkRow "z" 1, mkRow "u" 0]

def C2B : List Row := [mkRow "a" 2, mkRow "b" 1]

def C2fn : String → Nat → Except String (List Row) := fun _ _ => Except.ok C2B

def C2db : DbManager := ⟨none, some C2fn, none⟩

def C3rows : List Row := [mkRow "a" 0, mkRow "b" 1]

def C3rows' : List Row := [mkRow "b" 1, mkRow "a" 0]

def C4rows : List Row := [mkRow "a" 1, mkRow "b" 0]

def C5fn : String → List ℚ := fun _ => [1, 0]

def C6db : DbManager := ⟨none, none, none⟩

def C6dbEmpty : DbManager :=
  ⟨some (fun _ _ => Except.ok []), some (fun _ _ => Except.ok []), none⟩

def C6fn : String → List ℚ := fun _ => [1]

def C7db : DbManager := ⟨none, none, none⟩

def C8kd : List (String × String) :=
  [("vrsta_gradnje", "novogradnja"), ("faktor_zazidanosti_fz", "Ni podatka v dokumentaciji")]

def C9V : List Row := [mkRow "z" 0, mkRow "w" 1]

def C9B : List Row := [mkRow "z" 1, mkRow "u" 0]

/-! ### Dictionary lemmas -/

theorem dictFind_insert {α : Type} (d : List (String × α)) (k q : String) (v : α) :
    dictFind (dictInsert d k v) q = if q = k then some v else dictFind d q := by
  induction d with
  | nil => simp [dictInsert, dictFind]
  | cons p rest ih =>
    obtain ⟨k', v'⟩ := p
    by_cases hk : k' = k
    · subst hk
      simp only [dictInsert, if_pos rfl, dictFind]
      by_cases hq : q = k' <;> simp [hq, dictFind]
    · simp only [dictInsert, if_neg hk, dictFind]
      by_cases hq : q = k' <;> simp [hq, dictFind, ih, hk]

theorem dictGetD_insert {α : Type} (d : List (String × α)) (k q : String) (v df : α) :
    dictGetD (dictInsert d k v) q df = if q = k then v else dictGetD d q df := by
  unfold dictGetD
  rw [dictFind_insert]
  by_cases hq : q = k <;> simp [hq]

theorem dictFind_mem {α : Type} {d : List (String × α)} {k : String} {v : α}
    (h : dictFind d k = some v) : (k, v) ∈ d := by
  induction d with
  | nil => simp [dictFind] at h
  | cons p rest ih =>
    obtain ⟨k', v'⟩ := p
    simp only [dictFind] at h
    split at h
    · rename_i heq
      injection h with hv
      subst heq
      subst hv
      exact List.mem_cons_self _ _
    · exact List.mem_cons_of_mem _ (ih h)

theorem dictGetD_prop {α : Type} (P : α → Prop) {d : List (String × α)} (k : String) {df : α}
    (hd : ∀ p ∈ d, P p.2) (hdf : P df) : P (dictGetD d k df) := by
  unfold dictGetD
  cases h : dictFind d k with
  | none => simpa using hdf
  | some v => simpa using hd _ (dictFind_mem h)

theorem dictInsert_entries {α : Type} (P : String × α → Prop) {d : List (String × α)}
    {k : String} {v : α} (hd : ∀ p ∈ d, P p) (hv : P (k, v)) :
    ∀ p ∈ dictInsert d k v, P p := by
  induction d with
  | nil => simpa [dictInsert] using hv
  | cons p rest ih =>
    obtain ⟨k', v'⟩ := p
    by_cases hk : k' = k
    · subst hk
      simp only [dictInsert, if_pos rfl]
      intro q hq
      rcases List.mem_cons.mp hq with h | h
      · subst h; exact hv
      · exact hd _ (List.mem_cons_of_mem _ h)
    · simp only [dictInsert, if_neg hk]
      intro q hq
      rcases List.mem_cons.mp hq with h | h
      · subst h; exact hd _ (List.mem_cons_self _ _)
      · exact ih (fun p hp => hd _ (List.mem_cons_of_mem _ hp)) _ h

/-! ### Bounds for `normalise` and `normaliseScores` -/

theorem foldl_min_le (vs : List ℚ) (v : ℚ) : vs.foldl min v ≤ v := by
  induction vs generalizing v with
  | nil => exact le_refl v
  | cons w ws ih => exact le_trans (ih (min v w)) (min_le_left v w)

theorem foldl_min_le_mem {vs : List ℚ} {y : ℚ} (h : y ∈ vs) (v : ℚ) :
    vs.foldl min v ≤ y := by
  induction vs generalizing v with
  | nil => cases h
  | cons w ws ih =>
    rcases List.mem_cons.mp h with h' | h'
    · subst h'
      exact le_trans (foldl_min_le ws (min v y)) (min_le_right v y)
    · exact ih h' (min v w)

theorem le_foldl_max (vs : List ℚ) (v : ℚ) : v ≤ vs.foldl max v := by
  induction vs generalizing v with
  | nil => exact le_refl v
  | cons w ws ih => exact le_trans (le_max_left v w) (ih (max v w))

theorem le_foldl_max_mem {vs : List ℚ} {y : ℚ} (h : y ∈ vs) (v : ℚ) :
    y ≤ vs.foldl max v := by
  induction vs generalizing v with
  | nil => cases h
  | cons w ws ih =>
    rcases List.mem_cons.mp h with h' | h'
    · subst h'
      exact le_trans (le_max_right v y) (le_foldl_max ws (max v y))
    · exact ih h' (max v w)

theorem normalise_mem_nonneg {values : List ℚ} {x : ℚ} (h : x ∈ normalise values) : 0 ≤ x := by
  match values with
  | [] => simp [normalise] at h
  | v :: vs =>
    simp only [normalise] at h
    split at h
    · rcases List.mem_map.mp h with ⟨y, _, hy⟩
      exact le_of_eq hy
    · rename_i hspread
      rcases List.mem_map.mp h with ⟨y, hy, hxy⟩
      subst hxy
      have hlo : vs.foldl min v ≤ y := by
        rcases List.mem_cons.mp hy with h' | h'
        · rw [h']; exact foldl_min_le vs v
        · exact foldl_min_le_mem h' v
      have hlohi : vs.foldl min v ≤ vs.foldl max v :=
        le_trans (foldl_min_le vs v) (le_foldl_max vs v)
      have hpos : 0 < vs.foldl max v - vs.foldl min v := by
        rcases lt_or_eq_of_le hlohi with h' | h'
        · linarith
        · exfalso
          apply hspread
          rw [← h', sub_self, abs_zero]
          norm_num
      exact div_nonneg (by linarith) (le_of_lt hpos)

theorem normaliseScores_entries (rows : List Row) :
    ∀ p ∈ normaliseScores rows, 0 ≤ p.2 := by
  unfold normaliseScores
  have key : ∀ (l : List (Row × ℚ)) (d₀ : List (String × ℚ)),
      (∀ p ∈ d₀, 0 ≤ p.2) → (∀ p ∈ l, 0 ≤ p.2) →
      ∀ p ∈ l.foldl (fun d p => dictInsert d p.1.id p.2) d₀, 0 ≤ p.2 := by
    intro l
    induction l with
    | nil => intro d₀ hd _; exact hd
    | cons q l' ih =>
      intro d₀ hd hl
      exact ih _ (dictInsert_entries _ hd (hl q (List.mem_cons_self _ _)))
        (fun p hp => hl _ (List.mem_cons_of_mem _ hp))
  intro p hp
  refine key _ [] (by simp) ?_ p hp
  intro q hq
  have := List.of_mem_zip hq
  exact normalise_mem_nonneg this.2

theorem normaliseScores_getD_nonneg (rows : List Row) (id : String) :
    0 ≤ dictGetD (normaliseScores rows) id 0 :=
  dictGetD_prop _ _ (normaliseScores_entries rows) (le_refl 0)

/-! ### The fusion formula (lines 313–332) -/

theorem vecFold_getD (rows : List Row) (vn : List (String × ℚ)) (alpha : ℚ)
    (d₀ : List (String × ℚ)) (id : String) :
    dictGetD (rows.foldl (fun d r => dictInsert d r.id (alpha * dictGetD vn r.id 0)) d₀) id 0 =
      if id ∈ rows.map Row.id then alpha * dictGetD vn id 0 else dictGetD d₀ id 0 := by
  induction rows generalizing d₀ with
  | nil => simp
  | cons r rs ih =>
    simp only [List.foldl_cons, List.map_cons, List.mem_cons]
    rw [ih]
    by_cases h1 : id ∈ rs.map Row.id
    · simp [h1]
    · by_cases h2 : id = r.id
      · simp [h1, h2, dictGetD_insert]
      · simp [h1, h2, dictGetD_insert]

theorem bmFold_getD (rows : List Row) (bn : List (String × ℚ)) (alpha : ℚ)
    (d₀ : List (String × ℚ)) (id : String) :
    dictGetD (rows.foldl (fun d r => dictInsert d r.id
        (max (dictGetD d r.id 0) ((1 - alpha) * dictGetD bn r.id 0))) d₀) id 0 =
      if id ∈ rows.map Row.id then
        max (dictGetD d₀ id 0) ((1 - alpha) * dictGetD bn id 0)
      else dictGetD d₀ id 0 := by
  induction rows generalizing d₀ with
  | nil => simp
  | cons r rs ih =>
    simp only [List.foldl_cons, List.map_cons, List.mem_cons]
    rw [ih]
    by_cases h1 : id ∈ rs.map Row.id
    · by_cases h2 : id = r.id
      · simp [h1, h2, dictGetD_insert, max_assoc, max_self]
      · simp [h1, h2, dictGetD_insert]
    · by_cases h2 : id = r.id
      · simp [h1, h2, dictGetD_insert]
      · simp [h1, h2, dictGetD_insert]

theorem vecPhase_getD (vecRows : List Row) (alpha : ℚ) (id : String) :
    dictGetD (vecPhaseDict vecRows alpha) id 0 =
      if id ∈ vecRows.map Row.id then alpha * dictGetD (normaliseScores vecRows) id 0
      else 0 := by
  by_cases hv : vecRows = []
  · subst hv; simp [vecPhaseDict, dictGetD, dictFind]
  · unfold vecPhaseDict
    rw [if_neg hv, vecFold_getD]
    simp [dictGetD, dictFind]

theorem fusedScore_getD (vecRows bmRows : List Row) (alpha : ℚ) (id : String) :
    dictGetD (fusedScoreDict vecRows bmRows alpha) id 0 =
      if id ∈ bmRows.map Row.id then
        max (dictGetD (vecPhaseDict vecRows alpha) id 0)
          ((1 - alpha) * dictGetD (normaliseScores bmRows) id 0)
      else dictGetD (vecPhaseDict vecRows alpha) id 0 :=
  bmFold_getD bmRows (normaliseScores bmRows) alpha (vecPhaseDict vecRows alpha) id

theorem fusedRows_similarity (vecRows bmRows : List Row) (alpha : ℚ) :
    ∀ r ∈ fusedRows vecRows bmRows alpha,
      r.similarity = dictGetD (fusedScoreDict vecRows bmRows alpha) r.id 0 := by
  intro r hr
  simp only [fusedRows] at hr
  rcases List.mem_map.mp hr with ⟨p, _, hp⟩
  subst hp
  rfl

/-- C1: when both backends return rows, the fuser assigns every id found by
the vector backend the score `alpha` times its min-max-normalized vector
score, and every id found by the keyword backend the maximum of its existing
score and `(1 - alpha)` times its min-max-normalized keyword score; each
fused row carries the fused value for its id as its relevance score. -/
theorem C1_fused_score_formula (vecRows bmRows : List Row) (alpha : ℚ) (id : String) :
    (dictGetD (vecPhaseDict vecRows alpha) id 0 =
      if id ∈ vecRows.map Row.id then alpha * dictGetD (normaliseScores vecRows) id 0 else 0)
    ∧ (id ∈ bmRows.map Row.id →
        dictGetD (fusedScoreDict vecRows bmRows alpha) id 0 =
          max (dictGetD (vecPhaseDict vecRows alpha) id 0)
            ((1 - alpha) * dictGetD (normaliseScores bmRows) id 0))
    ∧ (id ∉ bmRows.map Row.id →
        dictGetD (fusedScoreDict vecRows bmRows alpha) id 0 =
          dictGetD (vecPhaseDict vecRows alpha) id 0)
    ∧ (∀ r ∈ fusedRows vecRows bmRows alpha,
        r.similarity = dictGetD (fusedScoreDict vecRows bmRows alpha) r.id 0) := by
  refine ⟨vecPhase_getD _ _ _, ?_, ?_, fusedRows_similarity _ _ _⟩
  · intro hb; rw [fusedScore_getD, if_pos hb]
  · intro hb; rw [fusedScore_getD, if_neg hb]

/-- C1 witness: a row found by both backends, vector-normalized `1/2`,
keyword-normalized `1`, `alpha = 3/5`, fuses to
`max(3/5 * 1/2, 2/5 * 1) = 2/5` — the spec scenario with `0.4`. -/
theorem C1_fused_score_formula_witness :
    dictGetD (fusedScoreDict C1V C1B (3/5)) "z" 0 = 2/5 := by
  have hV : normaliseScores C1V = [("x0", 0), ("z", 1/2), ("x2", 1)] := by
    have h1 : (if C1V = [] then [0] else C1V.map Row.similarity) = [0, 1, 2] := by
      simp [C1V, mkRow]
    simp only [normaliseScores]
    rw [h1]
    norm_num +decide [normalise, C1V, mkRow, List.zip, List.zipWith, dictInsert]
  have hB : normaliseScores C1B = [("z", 1), ("u", 0)] := by
    have h1 : (if C1B = [] then [0] else C1B.map Row.similarity) = [1, 0] := by
      simp [C1B, mkRow]
    simp only [normaliseScores]
    rw [h1]
    norm_num +decide [normalise, C1B, mkRow, List.zip, List.zipWith, dictInsert]
  have h := (C1_fused_score_formula C1V C1B (3/5) "z").2.1 (by decide)
  rw [h, (C1_fused_score_formula C1V C1B (3/5) "z").1,
    if_pos (by decide : "z" ∈ C1V.map Row.id), hV, hB]
  norm_num +decide [dictGetD, dictFind, max_def]

/-- C9 counterexample: with raw scores fixed, the row `"z"` is found by the
vector backend (vector-normalized `0`, keyword-normalized `1`); raising the
fusion weight from `1/2` to `3/5` lowers its fused score from `1/2` to
`2/5`. -/
theorem C9_counterexample :
    "z" ∈ C9V.map Row.id ∧
    dictGetD (fusedScoreDict C9V C9B (1/2)) "z" 0 = 1/2 ∧
    dictGetD (fusedScoreDict C9V C9B (3/5)) "z" 0 = 2/5 ∧
    ¬ dictGetD (fusedScoreDict C9V C9B (1/2)) "z" 0 ≤
        dictGetD (fusedScoreDict C9V C9B (3/5)) "z" 0 := by
  have hV : normaliseScores C9V = [("z", 0), ("w", 1)] := by
    have h0 : (if C9V = [] then [0] else C9V.map Row.similarity) = [0, 1] := by
      simp [C9V, mkRow]
    simp only [normaliseScores]
    rw [h0]
    norm_num +decide [normalise, C9V, mkRow, List.zip, List.zipWith, dictInsert]
  have hB : normaliseScores C9B = [("z", 1), ("u", 0)] := by
    have h0 : (if C9B = [] then [0] else C9B.map Row.similarity) = [1, 0] := by
      simp [C9B, mkRow]
    simp only [normaliseScores]
    rw [h0]
    norm_num +decide [normalise, C9B, mkRow, List.zip, List.zipWith, dictInsert]
  have h1 : dictGetD (fusedScoreDict C9V C9B (1/2)) "z" 0 = 1/2 := by
    rw [fusedScore_getD, if_pos (by decide : "z" ∈ C9B.map Row.id), vecPhase_getD,
      if_pos (by decide : "z" ∈ C9V.map Row.id), hV, hB]
    norm_num +decide [dictGetD, dictFind, max_def]
  have h2 : dictGetD (fusedScoreDict C9V C9B (3/5)) "z" 0 = 2/5 := by
    rw [fusedScore_getD, if_pos (by decide : "z" ∈ C9B.map Row.id), vecPhase_getD,
      if_pos (by decide : "z" ∈ C9V.map Row.id), hV, hB]
    norm_num +decide [dictGetD, dictFind, max_def]
  exact ⟨by decide, h1, h2, by rw [h1, h2]; norm_num⟩

/-- C9 amended: with raw scores fixed, raising the fusion weight never
decreases the fused score of an id found only by the vector backend, and
never increases the fused score of an id found only by the keyword backend
(for ids found by both backends the fused `max` need not be monotone). -/
theorem C9_fusion_monotonicity (vecRows bmRows : List Row) (alpha alpha' : ℚ)
    (h0 : 0 ≤ alpha) (h1 : alpha ≤ alpha') (h2 : alpha' ≤ 1) (id : String) :
    (id ∈ vecRows.map Row.id → id ∉ bmRows.map Row.id →
      dictGetD (fusedScoreDict vecRows bmRows alpha) id 0 ≤
        dictGetD (fusedScoreDict vecRows bmRows alpha') id 0)
    ∧ (id ∉ vecRows.map Row.id → id ∈ bmRows.map Row.id →
      dictGetD (fusedScoreDict vecRows bmRows alpha') id 0 ≤
        dictGetD (fusedScoreDict vecRows bmRows alpha) id 0) := by
  have bn := normaliseScores_getD_nonneg bmRows id
  have vn := normaliseScores_getD_nonneg vecRows id
  constructor
  · intro hv hb
    rw [fusedScore_getD, fusedScore_getD, if_neg hb, if_neg hb,
      vecPhase_getD, vecPhase_getD, if_pos hv, if_pos hv]
    exact mul_le_mul_of_nonneg_right h1 vn
  · intro hv hb
    rw [fusedScore_getD, fusedScore_getD, if_pos hb, if_pos hb,
      vecPhase_getD, vecPhase_getD, if_neg hv, if_neg hv]
    have e1 : max (0 : ℚ) ((1 - alpha') * dictGetD (normaliseScores bmRows) id 0) =
        (1 - alpha') * dictGetD (normaliseScores bmRows) id 0 :=
      max_eq_right (mul_nonneg (by linarith) bn)
    have e2 : max (0 : ℚ) ((1 - alpha) * dictGetD (normaliseScores bmRows) id 0) =
        (1 - alpha) * dictGetD (normaliseScores bmRows) id 0 :=
      max_eq_right (mul_nonneg (by linarith) bn)
    rw [e1, e2]
    exact mul_le_mul_of_nonneg_right (by linarith) bn

/-! ### MMR lemmas -/

theorem mkRow_similarity (i : String) (s : ℚ) : (mkRow i s).similarity = s := rfl

theorem mkRow_id (i : String) (s : ℚ) : (mkRow i s).id = i := rfl

theorem foldl_max_lt {l : List ℚ} {B : ℚ} (hl : ∀ x ∈ l, x < B) {a : ℚ} (ha : a < B) :
    l.foldl max a < B := by
  induction l generalizing a with
  | nil => exact ha
  | cons x xs ih =>
    exact ih (fun y hy => hl y (List.mem_cons_of_mem _ hy))
      (max_lt ha (hl x (List.mem_cons_self _ _)))

theorem maxDiv_lt {cand : Row} {selected : List Row} {B : ℚ}
    (hB : 0 < B) (h : ∀ s ∈ selected, div_sim cand s < B) :
    maxDiv cand selected < B := by
  match selected with
  | [] => simpa [maxDiv] using hB
  | s :: rest =>
    simp only [maxDiv]
    refine foldl_max_lt ?_ (h s (List.mem_cons_self _ _))
    intro x hx
    rcases List.mem_map.mp hx with ⟨t, ht, hxt⟩
    subst hxt
    exact h t (List.mem_cons_of_mem _ ht)

theorem mmrScore_gt {lambda_ : ℚ} {selected : List Row} {r : Row}
    (h0 : 0 ≤ lambda_) (h1 : lambda_ ≤ 1) (hr : 0 ≤ r.similarity)
    (hd : ∀ s ∈ selected, div_sim r s < 1000000000) :
    -1000000000 < mmrScore lambda_ selected r := by
  unfold mmrScore
  have hM : maxDiv r selected < 1000000000 := maxDiv_lt (by norm_num) hd
  have hrel : 0 ≤ lambda_ * r.similarity := mul_nonneg h0 hr
  rcases le_or_lt (maxDiv r selected) 0 with hM0 | hM0
  · nlinarith
  · nlinarith

theorem mmrFold_from_some (lambda_ : ℚ) (selected : List Row) :
    ∀ (l : List Row) (x : Row) (s : ℚ),
      ∃ b bs, l.foldl (mmrFold lambda_ selected) (some (x, s)) = some (b, bs) ∧ s ≤ bs ∧
        ((b = x ∧ bs = s) ∨ (b ∈ l ∧ bs = mmrScore lambda_ selected b)) ∧
        ∀ c ∈ l, mmrScore lambda_ selected c ≤ bs := by
  intro l
  induction l with
  | nil =>
    intro x s
    exact ⟨x, s, rfl, le_refl s, Or.inl ⟨rfl, rfl⟩, by simp⟩
  | cons c l' ih =>
    intro x s
    simp only [List.foldl_cons]
    by_cases hc : mmrScore lambda_ selected c > s
    · have hstep : mmrFold lambda_ selected (some (x, s)) c =
          some (c, mmrScore lambda_ selected c) := by
        simp [mmrFold, hc]
      rw [hstep]
      obtain ⟨b, bs, heq, hle, horig, hall⟩ := ih c (mmrScore lambda_ selected c)
      refine ⟨b, bs, heq, le_trans (le_of_lt hc) hle, ?_, ?_⟩
      · rcases horig with ⟨hb, hbs⟩ | ⟨hb, hbs⟩
        · subst hb
          exact Or.inr ⟨List.mem_cons_self _ _, hbs⟩
        · exact Or.inr ⟨List.mem_cons_of_mem _ hb, hbs⟩
      · intro d hd
        rcases List.mem_cons.mp hd with h' | h'
        · subst h'; exact hle
        · exact hall d h'
    · have hstep : mmrFold lambda_ selected (some (x, s)) c = some (x, s) := by
        simp [mmrFold, hc]
      rw [hstep]
      obtain ⟨b, bs, heq, hle, horig, hall⟩ := ih x s
      refine ⟨b, bs, heq, hle, ?_, ?_⟩
      · rcases horig with ⟨hb, hbs⟩ | ⟨hb, hbs⟩
        · exact Or.inl ⟨hb, hbs⟩
        · exact Or.inr ⟨List.mem_cons_of_mem _ hb, hbs⟩
      · intro d hd
        rcases List.mem_cons.mp hd with h' | h'
        · subst h'
          push_neg at hc
          exact le_trans hc hle
        · exact hall d h'

theorem mmrFold_from_none (lambda_ : ℚ) (selected : List Row) :
    ∀ l : List Row,
      (l.foldl (mmrFold lambda_ selected) none = none ∧
        ∀ c ∈ l, ¬(-1000000000 < mmrScore lambda_ selected c)) ∨
      (∃ b bs, l.foldl (mmrFold lambda_ selected) none = some (b, bs) ∧ b ∈ l ∧
        bs = mmrScore lambda_ selected b ∧ -1000000000 < bs ∧
        ∀ c ∈ l, mmrScore lambda_ selected c ≤ bs) := by
  intro l
  induction l with
  | nil => exact Or.inl ⟨rfl, by simp⟩
  | cons c l' ih =>
    simp only [List.foldl_cons]
    by_cases hc : -1000000000 < mmrScore lambda_ selected c
    · have hstep : mmrFold lambda_ selected none c =
          some (c, mmrScore lambda_ selected c) := by
        simp only [mmrFold]
        rw [if_pos hc]
      rw [hstep]
      obtain ⟨b, bs, heq, hle, horig, hall⟩ :=
        mmrFold_from_some lambda_ selected l' c (mmrScore lambda_ selected c)
      refine Or.inr ⟨b, bs, heq, ?_, ?_, lt_of_lt_of_le hc hle, ?_⟩
      · rcases horig with ⟨hb, -⟩ | ⟨hb, -⟩
        · subst hb; exact List.mem_cons_self _ _
        · exact List.mem_cons_of_mem _ hb
      · rcases horig with ⟨hb, hbs⟩ | ⟨-, hbs⟩
        · subst hb; exact hbs
        · exact hbs
      · intro d hd
        rcases List.mem_cons.mp hd with h' | h'
        · subst h'; exact hle
        · exact hall d h'
    · have hstep : mmrFold lambda_ selected none c = none := by
        simp [mmrFold, hc]
      rw [hstep]
      rcases ih with ⟨heq, hall⟩ | ⟨b, bs, heq, hb, hbs, hgt, hall⟩
      · refine Or.inl ⟨heq, ?_⟩
        intro d hd
        rcases List.mem_cons.mp hd with h' | h'
        · subst h'; exact hc
        · exact hall d h'
      · refine Or.inr ⟨b, bs, heq, List.mem_cons_of_mem _ hb, hbs, hgt, ?_⟩
        intro d hd
        rcases List.mem_cons.mp hd with h' | h'
        · subst h'
          push_neg at hc
          exact le_trans hc (le_of_lt hgt)
        · exact hall d h'

theorem mmrStep_spec {lambda_ : ℚ} {selected pool : List Row} {b : Row}
    (h : mmrStep lambda_ selected pool = some b) :
    b ∈ pool ∧ ∀ c ∈ pool, mmrScore lambda_ selected c ≤ mmrScore lambda_ selected b := by
  unfold mmrStep at h
  rcases mmrFold_from_none lambda_ selected pool with ⟨heq, -⟩ | ⟨b', bs, heq, hb, hbs, -, hall⟩
  · rw [heq] at h
    cases h
  · rw [heq] at h
    simp only [Option.map_some'] at h
    injection h with h'
    subst h'
    refine ⟨hb, ?_⟩
    intro c hc
    have := hall c hc
    rwa [← hbs]

theorem mmrStep_isSome {lambda_ : ℚ} {selected pool : List Row}
    (h : ∃ c ∈ pool, -1000000000 < mmrScore lambda_ selected c) :
    ∃ b, mmrStep lambda_ selected pool = some b := by
  unfold mmrStep
  rcases mmrFold_from_none lambda_ selected pool with ⟨heq, hall⟩ | ⟨b, bs, heq, -, -, -, -⟩
  · obtain ⟨c, hc, hgt⟩ := h
    exact absurd hgt (hall c hc)
  · exact ⟨b, by rw [heq]; rfl⟩

theorem mmrLoop_spec (lambda_ : ℚ) (k : Nat) (h0 : 0 ≤ lambda_) (h1 : lambda_ ≤ 1) :
    ∀ (fuel : Nat) (pool selected : List Row), pool.length ≤ fuel →
      (∀ r ∈ pool, 0 ≤ r.similarity) →
      (∀ c ∈ pool, ∀ s ∈ selected, div_sim c s < 1000000000) →
      (∀ c ∈ pool, ∀ s ∈ pool, div_sim c s < 1000000000) →
      ∃ rest, mmrLoop lambda_ k fuel selected pool = some (selected ++ rest) ∧
        rest.length = min (k - selected.length) pool.length := by
  intro fuel
  induction fuel with
  | zero =>
    intro pool selected hlen _ _ _
    have hp : pool = [] := List.length_eq_zero.mp (Nat.le_zero.mp hlen)
    subst hp
    exact ⟨[], by simp [mmrLoop], by simp⟩
  | succ fuel ih =>
    intro pool selected hlen hsim hdsel hdpool
    by_cases hguard : pool = [] ∨ k ≤ selected.length
    · refine ⟨[], ?_, ?_⟩
      · simp only [mmrLoop]
        rw [if_pos hguard]
        simp
      · rcases hguard with h | h
        · subst h; simp
        · simp [Nat.sub_eq_zero_of_le h]
    · push_neg at hguard
      obtain ⟨hpool, hk⟩ := hguard
      obtain ⟨p, ps, rfl⟩ := List.exists_cons_of_ne_nil hpool
      have hsome : ∃ b, mmrStep lambda_ selected (p :: ps) = some b := by
        apply mmrStep_isSome
        exact ⟨p, List.mem_cons_self _ _,
          mmrScore_gt h0 h1 (hsim p (List.mem_cons_self _ _))
            (fun s hs => hdsel p (List.mem_cons_self _ _) s hs)⟩
      obtain ⟨best, hstep⟩ := hsome
      have hbmem : best ∈ p :: ps := (mmrStep_spec hstep).1
      have herase : ((p :: ps).erase best).length = (p :: ps).length - 1 :=
        List.length_erase_of_mem hbmem
      have hsub : ∀ r ∈ (p :: ps).erase best, r ∈ p :: ps :=
        fun r hr => List.mem_of_mem_erase hr
      obtain ⟨rest, hloop, hrest⟩ := ih ((p :: ps).erase best) (selected ++ [best])
        (by rw [herase]; omega)
        (fun r hr => hsim r (hsub r hr))
        (fun c hc s hs => by
          rcases List.mem_append.mp hs with h' | h'
          · exact hdsel c (hsub c hc) s h'
          · have hsb : s = best := by simpa using h'
            subst hsb
            exact hdpool c (hsub c hc) s hbmem)
        (fun c hc s hs => hdpool c (hsub c hc) s (hsub s hs))
      refine ⟨best :: rest, ?_, ?_⟩
      · simp only [mmrLoop]
        rw [if_neg (by push_neg; exact ⟨List.cons_ne_nil p ps, hk⟩), hstep]
        show mmrLoop lambda_ k fuel (selected ++ [best]) ((p :: ps).erase best) =
          some (selected ++ best :: rest)
        rw [hloop]
        simp
      · have hlen2 : (selected ++ [best]).length = selected.length + 1 := by simp
        rw [hlen2, herase] at hrest
        simp only [List.length_cons] at hrest ⊢
        omega

theorem mmrLoop_mem (lambda_ : ℚ) (k : Nat) :
    ∀ (fuel : Nat) (pool selected out : List Row),
      mmrLoop lambda_ k fuel selected pool = some out →
      ∀ r ∈ out, r ∈ selected ∨ r ∈ pool := by
  intro fuel
  induction fuel with
  | zero =>
    intro pool selected out h r hr
    simp only [mmrLoop] at h
    split at h
    · injection h with h'
      subst h'
      exact Or.inl hr
    · cases h
  | succ fuel ih =>
    intro pool selected out h r hr
    simp only [mmrLoop] at h
    split at h
    · injection h with h'
      subst h'
      exact Or.inl hr
    · rcases hstep : mmrStep lambda_ selected pool with - | best
      · rw [hstep] at h
        cases h
      · rw [hstep] at h
        rcases ih _ _ _ h r hr with h' | h'
        · rcases List.mem_append.mp h' with h'' | h''
          · exact Or.inl h''
          · have hrb : r = best := by simpa using h''
            subst hrb
            exact Or.inr (mmrStep_spec hstep).1
        · exact Or.inr (List.mem_of_mem_erase h')

theorem mmr_mem {rows : List Row} {top_k : Nat} {lambda_ : ℚ} {out : List Row}
    (h : mmr rows top_k lambda_ = some out) : ∀ r ∈ out, r ∈ rows := by
  unfold mmr at h
  split at h
  · injection h with h'
    subst h'
    intro r hr
    cases hr
  · intro r hr
    rcases mmrLoop_mem lambda_ top_k rows.length rows [] out h r hr with h' | h'
    · cases h'
    · exact h'

/-- C4: for any valid input rows (normalized-nonnegative relevance scores,
`lambda` in `[0, 1]`, pairwise diversity similarities below the `-1e9`
sentinel scale) and any `top_k`, the MMR re-ranker returns exactly
`min(top_k, len(rows))` rows. -/
theorem C4_mmr_cardinality (rows : List Row) (top_k : Nat) (lambda_ : ℚ)
    (h0 : 0 ≤ lambda_) (h1 : lambda_ ≤ 1)
    (h2 : ∀ r ∈ rows, 0 ≤ r.similarity)
    (h3 : ∀ r ∈ rows, ∀ s ∈ rows, div_sim r s < 1000000000) :
    ∃ out, mmr rows top_k lambda_ = some out ∧ out.length = min top_k rows.length := by
  unfold mmr
  by_cases hr : rows = []
  · subst hr
    exact ⟨[], by simp, by simp⟩
  · rw [if_neg hr]
    obtain ⟨rest, hloop, hlen⟩ := mmrLoop_spec lambda_ top_k h0 h1 rows.length rows []
      (le_refl _) h2 (by intro c _ s hs; cases hs) h3
    refine ⟨[] ++ rest, hloop, ?_⟩
    simpa using hlen

/-- C4 witness: two rows, `top_k = 5`, `lambda = 3/4` — the re-ranker returns
`min 5 2 = 2` rows. -/
theorem C4_mmr_cardinality_witness :
    ∃ out, mmr C4rows 5 (3/4) = some out ∧ out.length = min 5 C4rows.length :=
  C4_mmr_cardinality C4rows 5 (3/4) (by norm_num) (by norm_num) (by decide) (by decide)

/-- C3 counterexample: at `lambda = 0` every candidate scores `0` on the
first pick, so `_mmr` selects the first row in input order (`"a"`, relevance
`0`) even though `"b"` has the strictly highest relevance `1`. -/
theorem C3_counterexample :
    mmr C3rows 1 0 = some [mkRow "a" 0] ∧
    mkRow "b" 1 ∈ C3rows ∧
    (mkRow "a" 0).similarity < (mkRow "b" 1).similarity := by
  have hfold : C3rows.foldl (mmrFold 0 []) none = some (mkRow "a" 0, 0) := by
    simp only [C3rows, List.foldl_cons, List.foldl_nil]
    norm_num +decide [mmrFold, mmrScore, maxDiv, mkRow_similarity]
  have hstep : mmrStep 0 [] C3rows = some (mkRow "a" 0) := by
    unfold mmrStep
    rw [hfold]
    rfl
  have e1 : mmr C3rows 1 0 = mmrLoop 0 1 2 [] C3rows := by
    unfold mmr
    rw [if_neg (by decide)]
    rfl
  have e2 : mmrLoop 0 1 2 [] C3rows =
      mmrLoop 0 1 1 [mkRow "a" 0] (C3rows.erase (mkRow "a" 0)) := by
    simp only [mmrLoop]
    rw [if_neg (by decide), hstep]
    simp
  have e3 : C3rows.erase (mkRow "a" 0) = [mkRow "b" 1] := by decide
  have e4 : mmrLoop 0 1 1 [mkRow "a" 0] [mkRow "b" 1] = some [mkRow "a" 0] := by
    simp only [mmrLoop]
    rw [if_pos (by decide)]
  refine ⟨?_, by decide, by decide⟩
  rw [e1, e2, e3, e4]

/-- C3 amended: for a strictly positive `lambda` (and valid inputs as in C4),
the first element selected by `_mmr` always has the maximal relevance score
among all candidates; at `lambda = 0` the first pick is instead the first row
in input order. -/
theorem C3_mmr_first_pick (rows : List Row) (top_k : Nat) (lambda_ : ℚ)
    (hl : 0 < lambda_) (h1 : lambda_ ≤ 1) (hk : 1 ≤ top_k) (hne : rows ≠ [])
    (h2 : ∀ r ∈ rows, 0 ≤ r.similarity)
    (h3 : ∀ r ∈ rows, ∀ s ∈ rows, div_sim r s < 1000000000) :
    ∃ best rest, mmr rows top_k lambda_ = some (best :: rest) ∧ best ∈ rows ∧
      ∀ r ∈ rows, r.similarity ≤ best.similarity := by
  obtain ⟨p, ps, rfl⟩ := List.exists_cons_of_ne_nil hne
  unfold mmr
  rw [if_neg hne]
  have hsome : ∃ b, mmrStep lambda_ [] (p :: ps) = some b := by
    apply mmrStep_isSome
    exact ⟨p, List.mem_cons_self _ _,
      mmrScore_gt (le_of_lt hl) h1 (h2 p (List.mem_cons_self _ _))
        (by intro s hs; cases hs)⟩
  obtain ⟨best, hstep⟩ := hsome
  obtain ⟨hbmem, hbmax⟩ := mmrStep_spec hstep
  obtain ⟨rest, hloop, -⟩ := mmrLoop_spec lambda_ top_k (le_of_lt hl) h1 ps.length
    ((p :: ps).erase best) [best]
    (by rw [List.length_erase_of_mem hbmem]; simp)
    (fun r hr => h2 r (List.mem_of_mem_erase hr))
    (fun c hc s hs => by
      have hsb : s = best := by simpa using hs
      subst hsb
      exact h3 c (List.mem_of_mem_erase hc) s hbmem)
    (fun c hc s hs => h3 c (List.mem_of_mem_erase hc) s (List.mem_of_mem_erase hs))
  refine ⟨best, rest, ?_, hbmem, ?_⟩
  · have hlen : (p :: ps).length = ps.length + 1 := by simp
    rw [hlen]
    simp only [mmrLoop]
    rw [if_neg (by push_neg; exact ⟨List.cons_ne_nil p ps, by simpa using hk⟩), hstep]
    show mmrLoop lambda_ top_k ps.length ([] ++ [best]) ((p :: ps).erase best) =
      some (best :: rest)
    rw [show ([] : List Row) ++ [best] = [best] from rfl, hloop]
    simp
  · intro r hr
    have h := hbmax r hr
    simp only [mmrScore, maxDiv] at h
    have h' : lambda_ * r.similarity ≤ lambda_ * best.similarity := by linarith
    exact le_of_mul_le_mul_left h' hl

/-- C3 amended witness: with `lambda = 3/4` the first pick among relevances
`1, 0` is the row with relevance `1`. -/
theorem C3_mmr_first_pick_witness :
    ∃ best rest, mmr C3rows' 1 (3/4) = some (best :: rest) ∧ best ∈ C3rows' ∧
      ∀ r ∈ C3rows', r.similarity ≤ best.similarity :=
  C3_mmr_first_pick C3rows' 1 (3/4) (by norm_num) (by norm_num) (le_refl 1) (by decide)
    (by decide) (by decide)

/-- C9 amended witness: `"w"` is vector-only and its fused score rises with
the weight; `"u"` is keyword-only and its fused score falls. -/
theorem C9_fusion_monotonicity_witness :
    dictGetD (fusedScoreDict C9V C9B (1/2)) "w" 0 ≤
      dictGetD (fusedScoreDict C9V C9B (3/5)) "w" 0 ∧
    dictGetD (fusedScoreDict C9V C9B (3/5)) "u" 0 ≤
      dictGetD (fusedScoreDict C9V C9B (1/2)) "u" 0 :=
  ⟨(C9_fusion_monotonicity C9V C9B (1/2) (3/5) (by norm_num) (by norm_num) (by norm_num)
      "w").1 (by decide) (by decide),
   (C9_fusion_monotonicity C9V C9B (1/2) (3/5) (by norm_num) (by norm_num) (by norm_num)
      "u").2 (by decide) (by decide)⟩

/-! ### Keyword-only retrieval (claim C2) -/

theorem updateEmbeddings_mem {m : List (String × List ℚ)} {rows : List Row} {r' : Row}
    (h : r' ∈ updateEmbeddings m rows) :
    ∃ r ∈ rows, r'.id = r.id ∧ r'.similarity = r.similarity := by
  unfold updateEmbeddings at h
  rcases List.mem_map.mp h with ⟨r, hr, hrr⟩
  refine ⟨r, hr, ?_⟩
  rcases he : r.embedding with - | e <;> rcases hf : dictFind m r.id with - | em <;>
    rw [he, hf] at hrr <;> rw [← hrr] <;> simp

theorem mergedDict_mem {vecRows bmRows : List Row} {p : String × Row}
    (h : p ∈ mergedDict vecRows bmRows) : p.2 ∈ vecRows ∨ p.2 ∈ bmRows := by
  unfold mergedDict at h
  have key1 : ∀ (l : List Row) (d : List (String × Row)),
      (∀ q ∈ d, q.2 ∈ vecRows ∨ q.2 ∈ bmRows) → (∀ x ∈ l, x ∈ vecRows) →
      ∀ q ∈ l.foldl (fun d r => dictInsert d r.id r) d,
        q.2 ∈ vecRows ∨ q.2 ∈ bmRows := by
    intro l
    induction l with
    | nil => intro d hd _; exact hd
    | cons x l' ih =>
      intro d hd hl
      simp only [List.foldl_cons]
      exact ih _ (dictInsert_entries _ hd (Or.inl (hl x (List.mem_cons_self _ _))))
        (fun y hy => hl y (List.mem_cons_of_mem _ hy))
  have key2 : ∀ (l : List Row) (d : List (String × Row)),
      (∀ q ∈ d, q.2 ∈ vecRows ∨ q.2 ∈ bmRows) → (∀ x ∈ l, x ∈ bmRows) →
      ∀ q ∈ l.foldl
          (fun d r => if (dictFind d r.id).isSome then d else dictInsert d r.id r) d,
        q.2 ∈ vecRows ∨ q.2 ∈ bmRows := by
    intro l
    induction l with
    | nil => intro d hd _; exact hd
    | cons x l' ih =>
      intro d hd hl
      simp only [List.foldl_cons]
      by_cases hx : (dictFind d x.id).isSome
      · rw [if_pos hx]
        exact ih d hd (fun y hy => hl y (List.mem_cons_of_mem _ hy))
      · rw [if_neg hx]
        exact ih _ (dictInsert_entries _ hd (Or.inr (hl x (List.mem_cons_self _ _))))
          (fun y hy => hl y (List.mem_cons_of_mem _ hy))
  exact key2 bmRows _ (key1 vecRows [] (by simp) (fun x hx => hx)) (fun x hx => hx) p h

theorem fusedRows_id_mem (vecRows bmRows : List Row) (alpha : ℚ) {r : Row}
    (h : r ∈ fusedRows vecRows bmRows alpha) :
    r.id ∈ vecRows.map Row.id ∨ r.id ∈ bmRows.map Row.id := by
  simp only [fusedRows] at h
  rcases List.mem_map.mp h with ⟨p, hp, hpr⟩
  have hid : r.id = p.2.id := by rw [← hpr]
  rw [hid]
  rcases mergedDict_mem hp with h' | h'
  · exact Or.inl (List.mem_map_of_mem Row.id h')
  · exact Or.inr (List.mem_map_of_mem Row.id h')

/-- C2 amended: when only the keyword backend returns rows, `hybrid_search`
routes them through the fusion path, so every returned row's relevance score
is `(1 - alpha)` times its min-max-normalized keyword score — the fusion
weight IS applied (the vector-only case uses the normalized score
directly). -/
theorem C2_keyword_only_weighted (B : List Row) (query_text : String) (k : Nat) (alpha : ℚ)
    (f : String → Nat → Except String (List Row))
    (hqt : query_text ≠ "") (h0 : 0 ≤ alpha) (h1 : alpha ≤ 1)
    (hf : f query_text (max (3 * k) 50) = Except.ok B)
    (out : List Row)
    (hout : hybrid_search ⟨none, some f, none⟩ query_text [] k alpha = some out) :
    ∀ r ∈ out, r.similarity = (1 - alpha) * dictGetD (normaliseScores B) r.id 0 := by
  intro r hr
  simp only [hybrid_search] at hout
  rw [if_neg hqt, hf] at hout
  simp only [] at hout
  by_cases hB : B = []
  · rw [hB] at hout
    simp at hout
    rw [hout] at hr
    cases hr
  · rw [if_neg (by simp [hB]), if_neg hB] at hout
    rw [show ∀ ids, fetchDocEmbeddings ⟨none, some f, none⟩ ids = [] from fun _ => rfl]
      at hout
    have hmem := mmr_mem hout r hr
    obtain ⟨r₀, hr₀, hid, hsim⟩ := updateEmbeddings_mem hmem
    rw [hsim, hid, fusedRows_similarity [] B alpha r₀ hr₀, fusedScore_getD]
    have hbmem : r₀.id ∈ B.map Row.id := by
      rcases fusedRows_id_mem [] B alpha hr₀ with h' | h'
      · simp at h'
      · exact h'
    rw [if_pos hbmem, vecPhase_getD, if_neg (by simp)]
    exact max_eq_right (mul_nonneg (by linarith) (normaliseScores_getD_nonneg B r₀.id))

theorem C2B_norm : normaliseScores C2B = [("a", 1), ("b", 0)] := by
  have h1 : (if C2B = [] then [0] else C2B.map Row.similarity) = [2, 1] := by
    simp [C2B, mkRow]
  simp only [normaliseScores]
  rw [h1]
  norm_num +decide [normalise, C2B, mkRow, List.zip, List.zipWith, dictInsert]

theorem C2_fsd : fusedScoreDict [] C2B (3/5) = [("a", 2/5), ("b", 0)] := by
  unfold fusedScoreDict vecPhaseDict
  rw [C2B_norm]
  norm_num +decide [C2B, mkRow, dictInsert, dictGetD, dictFind, max_def]

theorem C2_merged : mergedDict [] C2B = [("a", mkRow "a" 2), ("b", mkRow "b" 1)] := by
  norm_num +decide [mergedDict, C2B, dictInsert, dictFind, mkRow_id]

theorem C2_fusedRows : fusedRows [] C2B (3/5) = [mkRow "a" (2/5), mkRow "b" 0] := by
  unfold fusedRows
  rw [C2_fsd, C2_merged]
  norm_num +decide [dictGetD, dictFind, mkRow]

theorem div_sim_blank (i j : String) (s t : ℚ) : div_sim (mkRow i s) (mkRow j t) = 0 := by
  have h : tokenSet "" = ∅ := by decide
  simp [div_sim, mkRow, jaccard, h]

theorem C2_mmr :
    mmr [mkRow "a" (2/5), mkRow "b" 0] 2 (3/4) = some [mkRow "a" (2/5), mkRow "b" 0] := by
  have hfold1 : [mkRow "a" (2/5), mkRow "b" 0].foldl (mmrFold (3/4) []) none =
      some (mkRow "a" (2/5), 3/10) := by
    simp only [List.foldl_cons, List.foldl_nil]
    norm_num +decide [mmrFold, mmrScore, maxDiv, mkRow_similarity]
  have hstep1 : mmrStep (3/4) [] [mkRow "a" (2/5), mkRow "b" 0] = some (mkRow "a" (2/5)) := by
    unfold mmrStep
    rw [hfold1]
    rfl
  have hfold2 : [mkRow "b" 0].foldl (mmrFold (3/4) [mkRow "a" (2/5)]) none =
      some (mkRow "b" 0, 0) := by
    simp only [List.foldl_cons, List.foldl_nil]
    norm_num +decide [mmrFold, mmrScore, maxDiv, mkRow_similarity, div_sim_blank]
  have hstep2 : mmrStep (3/4) [mkRow "a" (2/5)] [mkRow "b" 0] = some (mkRow "b" 0) := by
    unfold mmrStep
    rw [hfold2]
    rfl
  have e1 : mmr [mkRow "a" (2/5), mkRow "b" 0] 2 (3/4) =
      mmrLoop (3/4) 2 2 [] [mkRow "a" (2/5), mkRow "b" 0] := by
    unfold mmr
    rw [if_neg (by decide)]
    rfl
  have e2 : mmrLoop (3/4) 2 2 [] [mkRow "a" (2/5), mkRow "b" 0] =
      mmrLoop (3/4) 2 1 [mkRow "a" (2/5)]
        ([mkRow "a" (2/5), mkRow "b" 0].erase (mkRow "a" (2/5))) := by
    simp only [mmrLoop]
    rw [if_neg (by decide), hstep1]
    simp
  have e3 : [mkRow "a" (2/5), mkRow "b" 0].erase (mkRow "a" (2/5)) = [mkRow "b" 0] := by
    rw [List.erase_cons_head]
  have e4 : mmrLoop (3/4) 2 1 [mkRow "a" (2/5)] [mkRow "b" 0] =
      mmrLoop (3/4) 2 0 [mkRow "a" (2/5), mkRow "b" 0]
        ([mkRow "b" 0].erase (mkRow "b" 0)) := by
    simp only [mmrLoop]
    rw [if_neg (by decide), hstep2]
    simp
  have e5 : [mkRow "b" 0].erase (mkRow "b" 0) = ([] : List Row) := by
    rw [List.erase_cons_head]
  have e6 : mmrLoop (3/4) 2 0 [mkRow "a" (2/5), mkRow "b" 0] [] =
      some [mkRow "a" (2/5), mkRow "b" 0] := by
    simp [mmrLoop]
  rw [e1, e2, e3, e4, e5, e6]

theorem C2_hybrid_eval :
    hybrid_search C2db "q" [] 2 (3/5) = some [mkRow "a" (2/5), mkRow "b" 0] := by
  have hfetch : ∀ ids,
      fetchDocEmbeddings ⟨none, some C2fn, none⟩ ids = ([] : List (String × List ℚ)) :=
    fun _ => rfl
  have hupd : updateEmbeddings [] [mkRow "a" (2/5), mkRow "b" 0] =
      [mkRow "a" (2/5), mkRow "b" 0] := by
    simp [updateEmbeddings, dictFind, mkRow]
  unfold hybrid_search
  norm_num +decide [C2db, C2fn]
  rw [hfetch, C2_fusedRows, hupd]
  exact C2_mmr

/-- C2 counterexample: only the keyword backend returns rows (raw scores 2
and 1, `alpha = 3/5`); the fused relevance of row `"a"` is `2/5`, not its
min-max-normalized keyword score `1` — the fusion weight is applied even
though the vector backend is absent. -/
theorem C2_counterexample :
    hybrid_search C2db "q" [] 2 (3/5) = some [mkRow "a" (2/5), mkRow "b" 0] ∧
    dictGetD (normaliseScores C2B) "a" 0 = 1 ∧
    (mkRow "a" (2/5)).similarity ≠ 1 := by
  refine ⟨C2_hybrid_eval, ?_, by norm_num [mkRow_similarity]⟩
  rw [C2B_norm]
  norm_num +decide [dictGetD, dictFind]

/-- C2 amended witness: in the concrete keyword-only run, the returned row
`"a"` carries `(1 - 3/5)` times its normalized keyword score. -/
theorem C2_keyword_only_weighted_witness :
    (mkRow "a" (2/5)).similarity =
      (1 - 3/5) * dictGetD (normaliseScores C2B) (mkRow "a" (2/5)).id 0 :=
  C2_keyword_only_weighted C2B "q" 2 (3/5) C2fn (by decide) (by norm_num) (by norm_num)
    rfl [mkRow "a" (2/5), mkRow "b" 0] C2_hybrid_eval (mkRow "a" (2/5))
    (List.mem_cons_self _ _)

/-! ### Embedding cache (claim C5) -/

/-- C5: the `lru_cache` caches only the SHA-256 digest of the trimmed text,
not the embedding — two `embed_query` calls with identical post-trim text
both invoke the provider (2 invocations, not at most 1), even though the
second call finds the text in the digest cache. -/
theorem C5_embed_cache_bug :
    (embed_query "abc" (some C5fn) none []).providerCalls = 1 ∧
    (embed_query "abc" (some C5fn) none []).cache = ["abc"] ∧
    (embed_query "abc" (some C5fn) none
        (embed_query "abc" (some C5fn) none []).cache).providerCalls = 1 ∧
    (embed_query "abc" (some C5fn) none []).providerCalls +
      (embed_query "abc" (some C5fn) none
        (embed_query "abc" (some C5fn) none []).cache).providerCalls = 2 :=
  ⟨rfl, rfl, rfl, rfl⟩

/-! ### Configuration error handling (claims C6, C7) -/

/-- C6 counterexample: with no embedding function anywhere and a storage
collaborator with no capabilities, `get_vector_context` completes
successfully, returning exactly the same header-only empty result as a
genuine "no matches" run with a working embedding function and empty-result
backends — not an error distinguishable from "no matches found". -/
theorem C6_counterexample :
    get_vector_context C6db [] none none 12 none none =
      some ("Relevantna pravila (citati):\n", []) ∧
    get_vector_context C6dbEmpty [] none none 12 (some C6fn) none =
      some ("Relevantna pravila (citati):\n", []) :=
  ⟨rfl, rfl⟩

/-- C6 amended: `embed_query` itself raises a `RuntimeError` when no
embedding function is injected or discoverable and the text is non-empty
after trimming; but the public entry point `get_vector_context` catches it
and completes successfully with the header-only empty result. -/
theorem C6_missing_embed_fn (text : String) (cache : List String)
    (h : pyStrip text ≠ "") :
    (∃ msg, (embed_query text none none cache).result = Except.error msg) ∧
    ∀ (kd : List (String × String)) (eup nr : Option String) (k : Nat)
      (ge : Option (List String → Except String (List (String × List ℚ)))),
      get_vector_context ⟨none, none, ge⟩ kd eup nr k none none =
        some ("Relevantna pravila (citati):" ++ "\n", []) := by
  constructor
  · refine ⟨"embed_query: manjka embed funkcija. Podaj embed_fn ali poskrbi, da ai.py vsebuje npr. embed_query(text)->vector.", ?_⟩
    unfold embed_query
    rw [if_neg h]
  · intro kd eup nr k ge
    rfl

/-- C6 amended witness. -/
theorem C6_missing_embed_fn_witness :
    (∃ msg, (embed_query "abc" none none []).result = Except.error msg) ∧
    get_vector_context ⟨none, none, none⟩ [] none none 12 none none =
      some ("Relevantna pravila (citati):" ++ "\n", []) :=
  ⟨(C6_missing_embed_fn "abc" [] (by decide)).1,
   (C6_missing_embed_fn "abc" [] (by decide)).2 [] none none 12 none⟩

/-- C7 counterexample: with neither search capability the entry point
returns the header-only context block `"Relevantna pravila (citati):\n"`
paired with `[]` — the context text is not the empty string `""`. -/
theorem C7_counterexample :
    get_vector_context C7db [] none none 12 none none =
      some ("Relevantna pravila (citati):\n", []) ∧
    ("Relevantna pravila (citati):\n" : String) ≠ "" :=
  ⟨rfl, by decide⟩

/-- C7 amended: for every input, a storage collaborator exposing neither
search method makes `get_vector_context` return the bare context header with
an empty row list, without raising. -/
theorem C7_no_backend_header_only (kd : List (String × String)) (eup nr : Option String)
    (k : Nat) (fn dfn : Option (String → List ℚ))
    (ge : Option (List String → Except String (List (String × List ℚ)))) :
    get_vector_context ⟨none, none, ge⟩ kd eup nr k fn dfn =
      some ("Relevantna pravila (citati):" ++ "\n", []) := rfl

/-! ### Query composer sentinel handling (claim C8) -/

/-- C8 counterexample: the sentinel-valued coverage-factor field is not
filtered — the produced query text contains its line verbatim. -/
theorem C8_counterexample :
    build_query_text C8kd none none =
      "vrsta_gradnje: novogradnja | faktor_zazidanosti_fz: Ni podatka v dokumentaciji" ∧
    build_query_text C8kd none none =
      "vrsta_gradnje: novogradnja | " ++
        "faktor_zazidanosti_fz: Ni podatka v dokumentaciji" ++ "" :=
  ⟨by decide, by decide⟩

/-- C8 amended: the query composer filters only fields whose value is empty
after stripping; "no data" sentinel strings are not filtered and appear in
the produced query text, as the example input shows. -/
theorem C8_empty_only_filter :
    (∀ (parts : List String) (label value : String),
      pyStrip value = "" → addPart parts label value = parts) ∧
    build_query_text C8kd none none =
      "vrsta_gradnje: novogradnja | faktor_zazidanosti_fz: Ni podatka v dokumentaciji" := by
  constructor
  · intro parts label value h
    unfold addPart
    rw [if_pos h]
  · decide

/-- C8 amended witness. -/
theorem C8_empty_only_filter_witness :
    addPart ["x"] "lab" "   " = ["x"] ∧
    build_query_text C8kd none none =
      "vrsta_gradnje: novogradnja | faktor_zazidanosti_fz: Ni podatka v dokumentaciji" :=
  ⟨C8_empty_only_filter.1 ["x"] "lab" "   " (by decide), C8_empty_only_filter.2⟩

/-! ### Totality of the cosine helper (claim C10) -/

/-- C10: the cosine helper is total: on an empty operand it returns `0.0`,
and the denominator it divides by is never zero — each factor is a norm
whose zero value is replaced by `1.0` before division. -/
theorem C10_cos_total (a b : List ℚ) :
    cosNorm a ≠ 0 ∧ cosNorm a * cosNorm b ≠ 0 ∧ cos [] b = 0 ∧ cos a [] = 0 ∧
    (Rat.sqrt ((a.map (fun x => x * x)).sum) = 0 → cosNorm a = 1) := by
  have hn : ∀ v : List ℚ, cosNorm v ≠ 0 := by
    intro v
    simp only [cosNorm]
    by_cases h : Rat.sqrt ((v.map (fun x => x * x)).sum) = 0
    · rw [if_pos h]
      exact one_ne_zero
    · rw [if_neg h]
      exact h
  refine ⟨hn a, mul_ne_zero (hn a) (hn b), ?_, ?_, ?_⟩
  · unfold cos
    rw [if_pos (Or.inl rfl)]
  · unfold cos
    rw [if_pos (Or.inr rfl)]
  · intro h
    simp only [cosNorm]
    rw [if_pos h]

/-- C10 witness: the all-zero vector has norm replaced by `1`, and the empty
vector yields cosine `0`. -/
theorem C10_cos_total_witness : cosNorm [0] = 1 ∧ cos [] [1] = 0 :=
  ⟨(C10_cos_total [0] [1]).2.2.2.2 (by norm_num), (C10_cos_total [0] [1]).2.2.1⟩

end VectorSearch
